import Mathlib

/-!
Verification of the index-translation and selection-rendering core of the
`handsontable` repository snapshot.

The development shallowly embeds the four source files:

* `src/translations/maps/utils/physicallyIndexed.js`
  (`getListWithInsertedItems`, `getListWithRemovedItems`),
* `src/translations/mapCollection.js`
  (`MapCollection`, the process-wide `registeredMaps` counter),
* `src/3rdparty/walkontable/src/selection.js`
  (`Selection`: `add`, `replace`, `getCorners`, `draw`,
  `getBorderEdgesDescriptor`, `getRelevantCell`),

together with the collaborators that the snapshot only declares
(`CellCoords`, `CellRange`, the per-map `IndexMap` operations), which are
modelled from the specification where so noted.

JavaScript arrays become `List`, JS `Map` objects become association lists in
insertion order, machine numbers become `Int`/`Nat`, nullable values become
`Option`, and the DOM collaborators of `draw` become abstract boolean-valued
query functions carried in a `Wot` record.  All definitions are executable.
-/

set_option autoImplicit false

universe u

/-- The `insertedValuesMapping` argument of `getListWithInsertedItems`: either a
plain value or an invocable factory.  The source tests `isFunction` on it; the
factory is called with `(insertedIndex, ordinalNumber)`. -/
inductive ValueOrFactory (α : Type u) where
  | value : α → ValueOrFactory α
  | factory : (Nat → Nat → α) → ValueOrFactory α

/-- Evaluation of a `ValueOrFactory` at one member of an inserted batch, exactly
the body of the arrow function inside `getListWithInsertedItems`: the plain
value when the mapping is not invocable, otherwise the factory applied to the
inserted index and its ordinal number within the batch. -/
def applyMapping {α : Type u} (insertedValuesMapping : ValueOrFactory α)
    (insertedIndex ordinalNumber : Nat) : α :=
  match insertedValuesMapping with
  | .value v => v
  | .factory f => f insertedIndex ordinalNumber

/-- Embedding of `getListWithInsertedItems` from
`src/translations/maps/utils/physicallyIndexed.js`.

The source reads `const firstInsertedIndex = insertedIndexes[0]` and returns
`[...indexedValues.slice(0, firstInsertedIndex), ...insertedIndexes.map(...),
...indexedValues.slice(firstInsertedIndex)]`.  Inserted indexes are physical
indexes, hence natural numbers, and for a natural bound JS
`slice(0, b)` / `slice(b)` clamp to the array length exactly as `List.take` /
`List.drop` do.  When the batch is empty, `insertedIndexes[0]` is `undefined`;
JS `slice(0, undefined)` and `slice(undefined)` both copy the whole array, so
both slices contribute the full list (the `none` branch). -/
def getListWithInsertedItems {α : Type u} (indexedValues : List α)
    (insertionIndex : Int) (insertedIndexes : List Nat)
    (insertedValuesMapping : ValueOrFactory α) : List α :=
  let newItems := insertedIndexes.enum.map
    (fun p => applyMapping insertedValuesMapping p.2 p.1)
  match insertedIndexes.head? with
  | some firstInsertedIndex =>
      indexedValues.take firstInsertedIndex ++ newItems
        ++ indexedValues.drop firstInsertedIndex
  | none => indexedValues ++ newItems ++ indexedValues

/-- Modelled from the spec: the `arrayFilter` helper of `helpers/array.js` is
not in the snapshot; per the spec it is the ordinary JS `Array.prototype.filter`
taking a `(value, index)` callback.  `arrayFilterFrom` performs the filtering
with the index of the first element made explicit, which gives the callback the
absolute position of every element. -/
def arrayFilterFrom {α : Type u} (predicate : α → Nat → Bool) :
    Nat → List α → List α
  | _, [] => []
  | i, x :: xs =>
      if predicate x i then x :: arrayFilterFrom predicate (i + 1) xs
      else arrayFilterFrom predicate (i + 1) xs

/-- Modelled from the spec: JS `arrayFilter(arr, predicate)` with a
`(value, index)` callback, positions counted from `0`. -/
def arrayFilter {α : Type u} (arr : List α) (predicate : α → Nat → Bool) :
    List α :=
  arrayFilterFrom predicate 0 arr

/-- Embedding of `getListWithRemovedItems` from
`src/translations/maps/utils/physicallyIndexed.js`: keep exactly the elements
whose position is not a member of `removedIndexes`
(`arrayFilter(indexedValues, (_, index) => removedIndexes.includes(index) === false)`). -/
def getListWithRemovedItems {α : Type u} (indexedValues : List α)
    (removedIndexes : List Nat) : List α :=
  arrayFilter indexedValues (fun _ index => !(removedIndexes.contains index))

example :
    getListWithInsertedItems [0, 1, 2, 3, 4] 0 [2, 3]
      (ValueOrFactory.factory fun _ _ => (-1 : Int)) = [0, 1, -1, -1, 2, 3, 4] := by
  decide

example :
    getListWithRemovedItems [(1 : Int), -1, 2, 3, 4, 5] [0, 3, 6] = [-1, 2, 4, 5] := by
  decide

example :
    getListWithInsertedItems [10, 20] 5 [] (ValueOrFactory.value (0 : Int)) =
      [10, 20, 10, 20] := by
  decide

section OrderedListTransform

variable {α : Type u}

lemma arrayFilterFrom_append (p : α → Nat → Bool) (s : Nat) (xs ys : List α) :
    arrayFilterFrom p s (xs ++ ys) =
      arrayFilterFrom p s xs ++ arrayFilterFrom p (s + xs.length) ys := by
  induction xs generalizing s with
  | nil => simp [arrayFilterFrom]
  | cons x xs ih =>
      simp only [List.cons_append, arrayFilterFrom, List.length_cons]
      have harith : s + 1 + xs.length = s + (xs.length + 1) := by omega
      cases hp : p x s <;> simp [ih, harith]

lemma arrayFilterFrom_all_true (p : α → Nat → Bool) (s : Nat) (xs : List α)
    (h : ∀ x j, s ≤ j → j < s + xs.length → p x j = true) :
    arrayFilterFrom p s xs = xs := by
  induction xs generalizing s with
  | nil => rfl
  | cons x xs ih =>
      have hx : p x s = true := h x s (le_refl s) (by simp)
      simp only [arrayFilterFrom, hx, if_true]
      rw [ih (s + 1) (fun y j hj₁ hj₂ => h y j (by omega) (by simpa using by omega))]

lemma arrayFilterFrom_all_false (p : α → Nat → Bool) (s : Nat) (xs : List α)
    (h : ∀ x j, s ≤ j → j < s + xs.length → p x j = false) :
    arrayFilterFrom p s xs = [] := by
  induction xs generalizing s with
  | nil => rfl
  | cons x xs ih =>
      have hx : p x s = false := h x s (le_refl s) (by simp)
      simp only [arrayFilterFrom, hx, if_false]
      exact ih (s + 1) (fun y j hj₁ hj₂ => h y j (by omega) (by simpa using by omega))

end OrderedListTransform

/-- C2: for a list `L`, a non-empty batch of inserted indexes `f :: B'` whose
first member satisfies `f ≤ L.length`, and any value-or-factory `v`,
`getListWithInsertedItems` returns a list of length `L.length + (f :: B').length`
whose prefix below position `f` is `L` unchanged, whose `(f :: B').length` new
entries sit contiguously from position `f` — the `k`-th being `v` itself for a
plain value and `v(B[k], k)` for a factory, i.e. `applyMapping v B[k] k` — and
whose remaining entries are the elements of `L` from position `f` on, shifted
right by the batch length.  The embedding is a pure function, so the input list
is unchanged by construction. -/
theorem getListWithInsertedItems_spec {α : Type u} (L : List α) (i : Int)
    (f : Nat) (B' : List Nat) (v : ValueOrFactory α) (hf : f ≤ L.length) :
    (getListWithInsertedItems L i (f :: B') v).length = L.length + (f :: B').length ∧
    (∀ k, k < f → (getListWithInsertedItems L i (f :: B') v)[k]? = L[k]?) ∧
    (∀ k idx, (f :: B')[k]? = some idx →
      (getListWithInsertedItems L i (f :: B') v)[f + k]? =
        some (applyMapping v idx k)) ∧
    (∀ k, (getListWithInsertedItems L i (f :: B') v)[f + (f :: B').length + k]? =
      L[f + k]?) := by
  have hR : getListWithInsertedItems L i (f :: B') v =
      L.take f ++ (f :: B').enum.map (fun p => applyMapping v p.2 p.1)
        ++ L.drop f := rfl
  set new := (f :: B').enum.map (fun p => applyMapping v p.2 p.1) with hnew
  have htake : (L.take f).length = f := by
    rw [List.length_take]; omega
  have hnewlen : new.length = (f :: B').length := by
    rw [hnew, List.length_map, List.enum_length]
  refine ⟨?_, ?_, ?_, ?_⟩
  · rw [hR]
    simp only [List.length_append, htake, hnewlen, List.length_drop]
    omega
  · intro k hk
    rw [hR, List.getElem?_append_left, List.getElem?_append_left,
      List.getElem?_take_of_lt hk]
    · omega
    · simp only [List.length_append, htake, hnewlen]; omega
  · intro k idx hidx
    have hk : k < (f :: B').length := by
      by_contra hk
      rw [List.getElem?_eq_none_iff.mpr (by omega)] at hidx
      exact Option.noConfusion hidx
    rw [hR, List.getElem?_append_left (by simp only [List.length_append, htake, hnewlen]; omega),
      List.getElem?_append_right (by omega : (L.take f).length ≤ f + k)]
    rw [htake, Nat.add_sub_cancel_left, hnew, List.getElem?_map, List.getElem?_enum, hidx]
    rfl
  · intro k
    rw [hR, List.getElem?_append_right
      (by simp only [List.length_append, htake, hnewlen]; omega)]
    simp only [List.length_append, htake, hnewlen]
    have : f + (f :: B').length + k - (f + (f :: B').length) = k := by omega
    rw [this, List.getElem?_drop]

/-- C2 witness: scenario 1 of the spec — inserting a two-element batch with
first inserted index 2 and a factory constantly returning `-1` into
`[0, 1, 2, 3, 4]` puts the two `-1` entries at positions 2 and 3 and yields a
list of length 7, `[0, 1, -1, -1, 2, 3, 4]`. -/
theorem getListWithInsertedItems_spec_witness :
    (getListWithInsertedItems [0, 1, 2, 3, 4] 0 [2, 3]
        (ValueOrFactory.factory fun _ _ => (-1 : Int))).length = 7 ∧
    (getListWithInsertedItems [0, 1, 2, 3, 4] 0 [2, 3]
        (ValueOrFactory.factory fun _ _ => (-1 : Int)))[2]? = some (-1) ∧
    (getListWithInsertedItems [0, 1, 2, 3, 4] 0 [2, 3]
        (ValueOrFactory.factory fun _ _ => (-1 : Int)))[4]? = some 2 := by
  have h := getListWithInsertedItems_spec [0, 1, 2, 3, 4] 0 2 [3]
    (ValueOrFactory.factory fun _ _ => (-1 : Int)) (by decide)
  exact ⟨h.1, h.2.2.1 0 2 rfl, by simpa using h.2.2.2 0⟩

/-- C9: the `insertionIndex` parameter of `getListWithInsertedItems` has no
effect on the output — for a non-empty batch the result is identical for any
two values of it, the splice position being taken solely from the first member
of the inserted-indexes batch. -/
theorem getListWithInsertedItems_insertionIndex_irrelevant {α : Type u}
    (L : List α) (i j : Int) (B : List Nat) (v : ValueOrFactory α)
    (hB : B ≠ []) :
    getListWithInsertedItems L i B v = getListWithInsertedItems L j B v := rfl

/-- C9 witness: instantiation at `insertionIndex` values 0 and 99 on a concrete
list and batch. -/
theorem getListWithInsertedItems_insertionIndex_irrelevant_witness :
    getListWithInsertedItems [true, false] 0 [1] (ValueOrFactory.value true) =
      getListWithInsertedItems [true, false] 99 [1] (ValueOrFactory.value true) :=
  getListWithInsertedItems_insertionIndex_irrelevant [true, false] 0 99 [1]
    (ValueOrFactory.value true) (by decide)

/-- C10: with an empty inserted-indexes batch, `getListWithInsertedItems`
returns the input list concatenated with itself — length `2 * L.length` — not
`L` unchanged: `insertedIndexes[0]` is `undefined`, and both
`slice(0, undefined)` and `slice(undefined)` copy the entire list. -/
theorem getListWithInsertedItems_nil_batch {α : Type u} (L : List α) (i : Int)
    (v : ValueOrFactory α) :
    getListWithInsertedItems L i [] v = L ++ L ∧
    (getListWithInsertedItems L i [] v).length = 2 * L.length := by
  constructor
  · simp [getListWithInsertedItems]
  · simp [getListWithInsertedItems, two_mul]

/-- C3: removing, from the output of `getListWithInsertedItems`, exactly the
post-insertion positions of the inserted batch — positions `f` through
`f + batchLength - 1`, where `f` is the first inserted index — with
`getListWithRemovedItems` yields the original list: insert followed by removal
of the same positions is the identity, for every insertion index `i`, value or
factory `v`, and non-empty batch `f :: B'` with `f ≤ L.length`. -/
theorem removeItems_insertItems_roundtrip {α : Type u} (L : List α) (i : Int)
    (f : Nat) (B' : List Nat) (v : ValueOrFactory α) (hf : f ≤ L.length) :
    getListWithRemovedItems (getListWithInsertedItems L i (f :: B') v)
      ((List.range (f :: B').length).map (fun k => f + k)) = L := by
  have hR : getListWithInsertedItems L i (f :: B') v =
      L.take f ++ (f :: B').enum.map (fun p => applyMapping v p.2 p.1)
        ++ L.drop f := rfl
  set m := (f :: B').length with hm
  set R := (List.range m).map (fun k => f + k) with hRdef
  have hmem : ∀ j : Nat, R.contains j = true ↔ (f ≤ j ∧ j < f + m) := by
    intro j
    rw [List.elem_iff, hRdef]
    simp only [List.mem_map, List.mem_range]
    constructor
    · rintro ⟨k, hk, rfl⟩; omega
    · rintro ⟨h₁, h₂⟩; exact ⟨j - f, by omega, by omega⟩
  have htake : (L.take f).length = f := by rw [List.length_take]; omega
  have hnewlen : ((f :: B').enum.map (fun p => applyMapping v p.2 p.1)).length = m := by
    rw [List.length_map, List.enum_length]
  rw [hR, getListWithRemovedItems, arrayFilter, arrayFilterFrom_append,
    arrayFilterFrom_append]
  rw [arrayFilterFrom_all_true _ _ _ (fun x j hj₁ hj₂ => by
    rw [htake] at hj₂
    simp only [Bool.not_eq_true']
    rw [Bool.eq_false_iff]
    intro hc
    have := (hmem j).mp hc
    omega)]
  rw [arrayFilterFrom_all_false _ _ _ (fun x j hj₁ hj₂ => by
    rw [htake] at hj₁
    rw [hnewlen, htake] at hj₂
    simp only [Bool.not_eq_false']
    exact (hmem j).mpr ⟨by omega, by omega⟩)]
  rw [arrayFilterFrom_all_true _ _ _ (fun x j hj₁ hj₂ => by
    simp only [List.length_append, htake, hnewlen] at hj₁
    simp only [Bool.not_eq_true']
    rw [Bool.eq_false_iff]
    intro hc
    have := (hmem j).mp hc
    omega)]
  rw [List.append_nil, List.take_append_drop]

/-- C3 witness: inserting two entries at position 2 of `[0,1,2,3,4]` and then
removing positions 2 and 3 restores `[0,1,2,3,4]`. -/
theorem removeItems_insertItems_roundtrip_witness :
    getListWithRemovedItems
      (getListWithInsertedItems [0, 1, 2, 3, 4] 0 [2, 3]
        (ValueOrFactory.factory fun _ _ => (-1 : Int)))
      ((List.range [2, 3].length).map (fun k => 2 + k)) = [0, 1, 2, 3, 4] :=
  removeItems_insertItems_roundtrip [0, 1, 2, 3, 4] 0 2 [3]
    (ValueOrFactory.factory fun _ _ => (-1 : Int)) (by decide)

/-- Modelled from the spec: the per-map `IndexMap` (`BaseMap`) class is not in
the snapshot; per the spec it holds
`{ name, values : ordered sequence, initialValueSource : V | (index) => V }`,
with `insert`/`remove` delegating to the Ordered List Transform with the
configured initial-value source and `init(length)` resetting the sequence to
`length` entries drawn from that source.  The name lives in the owning
collection, so the structure carries the value sequence and the initial-value
source. -/
structure IndexMap (α : Type u) where
  values : List α
  initialValueSource : ValueOrFactory α

/-- Modelled from the spec: `IndexMap.insert` replaces the stored sequence by
`getListWithInsertedItems` applied with the configured initial-value source
(the change notification carries no data and is omitted from the embedding). -/
def IndexMap.insert {α : Type u} (m : IndexMap α) (insertionIndex : Int)
    (insertedIndexes : List Nat) : IndexMap α :=
  { m with values := (getListWithInsertedItems m.values insertionIndex
      insertedIndexes m.initialValueSource) }

/-- Modelled from the spec: `IndexMap.remove` replaces the stored sequence by
`getListWithRemovedItems`. -/
def IndexMap.remove {α : Type u} (m : IndexMap α) (removedIndexes : List Nat) :
    IndexMap α :=
  { m with values := getListWithRemovedItems m.values removedIndexes }

/-- Modelled from the spec: `IndexMap.init(length)` resets the value sequence to
`length` entries from the initial-value source; per the spec the factory form is
invoked with the index alone, so the batch-ordinal argument is absent at this
call site (`0` stands for the absent argument). -/
def IndexMap.init {α : Type u} (m : IndexMap α) (length : Nat) : IndexMap α :=
  { m with values :=
      (List.range length).map (fun index => applyMapping m.initialValueSource index 0) }

/-- Embedding of the `MapCollection` class of `src/translations/mapCollection.js`:
`this.mappings` is a JS `Map` from unique name to map, modelled as an
association list in insertion order. -/
structure MapCollection (α : Type u) where
  mappings : List (String × IndexMap α)

/-- Embedding of `MapCollection.prototype.register`.  The process-wide
`registeredMaps` counter is threaded explicitly: when the name is not yet
registered the map is stored (JS `Map.set` on an absent key appends in
insertion order) and the counter is incremented; otherwise nothing happens.
The local-hook subscription carries no data and is omitted. -/
def MapCollection.register {α : Type u} (c : MapCollection α)
    (registeredMaps : Int) (uniqueName : String) (map : IndexMap α) :
    MapCollection α × Int :=
  if c.mappings.any (fun p => p.1 == uniqueName) = false then
    ({ mappings := c.mappings ++ [(uniqueName, map)] }, registeredMaps + 1)
  else
    (c, registeredMaps)

/-- Embedding of `MapCollection.prototype.unregister`: when the name is
registered, the entry is deleted (JS `Map.delete` removes the single entry with
that key; `eraseP` removes the first and only such entry) and the counter is
decremented; otherwise nothing happens. -/
def MapCollection.unregister {α : Type u} (c : MapCollection α)
    (registeredMaps : Int) (name : String) : MapCollection α × Int :=
  if c.mappings.any (fun p => p.1 == name) then
    ({ mappings := c.mappings.eraseP (fun p => p.1 == name) }, registeredMaps - 1)
  else
    (c, registeredMaps)

/-- Embedding of `MapCollection.prototype.getLength`. -/
def MapCollection.getLength {α : Type u} (c : MapCollection α) : Nat :=
  c.mappings.length

/-- Embedding of `MapCollection.prototype.removeFromEvery`: fan the removal out
to every registered map, in registration order. -/
def MapCollection.removeFromEvery {α : Type u} (c : MapCollection α)
    (removedIndexes : List Nat) : MapCollection α :=
  { mappings := c.mappings.map (fun p => (p.1, p.2.remove removedIndexes)) }

/-- Embedding of `MapCollection.prototype.insertToEvery`: fan the insertion out
to every registered map, in registration order. -/
def MapCollection.insertToEvery {α : Type u} (c : MapCollection α)
    (insertionIndex : Int) (insertedIndexes : List Nat) : MapCollection α :=
  { mappings := c.mappings.map
      (fun p => (p.1, p.2.insert insertionIndex insertedIndexes)) }

/-- Embedding of `MapCollection.prototype.initEvery`: fan `init` out to every
registered map, in registration order. -/
def MapCollection.initEvery {α : Type u} (c : MapCollection α) (length : Nat) :
    MapCollection α :=
  { mappings := c.mappings.map (fun p => (p.1, p.2.init length)) }

/-- All registered maps of a collection hold value sequences of one common
length. -/
def MapCollection.EqualLengths {α : Type u} (c : MapCollection α) : Prop :=
  ∀ p ∈ c.mappings, ∀ q ∈ c.mappings, p.2.values.length = q.2.values.length

lemma getListWithInsertedItems_length {α : Type u} (l : List α) (i : Int)
    (B : List Nat) (v : ValueOrFactory α) :
    (getListWithInsertedItems l i B v).length =
      if B.isEmpty then 2 * l.length else l.length + B.length := by
  cases B with
  | nil => simp [getListWithInsertedItems, two_mul]
  | cons f B' =>
      simp only [getListWithInsertedItems, List.head?_cons, List.isEmpty_cons,
        if_false, Bool.false_eq_true]
      simp only [List.length_append, List.length_map, List.enum_length,
        List.length_take, List.length_drop, List.length_cons]
      omega

lemma arrayFilterFrom_length_congr {α : Type u} (q : Nat → Bool)
    (l₁ l₂ : List α) (s : Nat) (h : l₁.length = l₂.length) :
    (arrayFilterFrom (fun _ j => q j) s l₁).length =
      (arrayFilterFrom (fun _ j => q j) s l₂).length := by
  induction l₁ generalizing l₂ s with
  | nil => cases l₂ with
    | nil => rfl
    | cons y ys => simp at h
  | cons x xs ih =>
      cases l₂ with
      | nil => simp at h
      | cons y ys =>
          simp only [List.length_cons, Nat.add_right_cancel_iff] at h
          simp only [arrayFilterFrom]
          rcases Bool.eq_false_or_eq_true (q s) with hq | hq <;>
            simp [hq, ih ys (s + 1) h]

lemma getListWithRemovedItems_length_congr {α : Type u} (l₁ l₂ : List α)
    (R : List Nat) (h : l₁.length = l₂.length) :
    (getListWithRemovedItems l₁ R).length = (getListWithRemovedItems l₂ R).length :=
  arrayFilterFrom_length_congr (fun j => !(R.contains j)) l₁ l₂ 0 h

/-- C1: on a `MapCollection` whose registered maps all have value sequences of
one common length, each of `insertToEvery`, `removeFromEvery` and `initEvery`
applies the corresponding per-map operation to every member, in registration
order (the fan-out equation on `mappings`), and afterwards every member again
has a value sequence of identical length.  The embedding is a sequential pure
fold over the registration-ordered list, so the fan-out completes before the
call returns. -/
theorem mapCollection_fanout_preserves_equal_lengths {α : Type u}
    (c : MapCollection α) (i : Int) (B R : List Nat) (len : Nat)
    (h : c.EqualLengths) :
    ((c.insertToEvery i B).mappings =
        c.mappings.map (fun p => (p.1, p.2.insert i B)) ∧
      (c.insertToEvery i B).EqualLengths) ∧
    ((c.removeFromEvery R).mappings =
        c.mappings.map (fun p => (p.1, p.2.remove R)) ∧
      (c.removeFromEvery R).EqualLengths) ∧
    ((c.initEvery len).mappings =
        c.mappings.map (fun p => (p.1, p.2.init len)) ∧
      (c.initEvery len).EqualLengths) := by
  refine ⟨⟨rfl, ?_⟩, ⟨rfl, ?_⟩, ⟨rfl, ?_⟩⟩
  · intro p' hp' q' hq'
    simp only [MapCollection.insertToEvery, List.mem_map] at hp' hq'
    obtain ⟨p, hp, rfl⟩ := hp'
    obtain ⟨q, hq, rfl⟩ := hq'
    simp only [IndexMap.insert, getListWithInsertedItems_length]
    rw [h p hp q hq]
  · intro p' hp' q' hq'
    simp only [MapCollection.removeFromEvery, List.mem_map] at hp' hq'
    obtain ⟨p, hp, rfl⟩ := hp'
    obtain ⟨q, hq, rfl⟩ := hq'
    simp only [IndexMap.remove]
    exact getListWithRemovedItems_length_congr _ _ R (h p hp q hq)
  · intro p' hp' q' hq'
    simp only [MapCollection.initEvery, List.mem_map] at hp' hq'
    obtain ⟨p, hp, rfl⟩ := hp'
    obtain ⟨q, hq, rfl⟩ := hq'
    simp [IndexMap.init]

/-- C1 witness: a two-map collection of common length 2 keeps identical lengths
through `insertToEvery 0 [1]`, and in particular both members then have length
3. -/
theorem mapCollection_fanout_preserves_equal_lengths_witness :
    (MapCollection.insertToEvery
        ⟨[("a", ⟨[5, 6], ValueOrFactory.value (0 : Int)⟩),
          ("b", ⟨[7, 8], ValueOrFactory.value 9⟩)]⟩ 0 [1]).EqualLengths := by
  have h := (mapCollection_fanout_preserves_equal_lengths
    (α := Int)
    ⟨[("a", ⟨[5, 6], ValueOrFactory.value 0⟩),
      ("b", ⟨[7, 8], ValueOrFactory.value 9⟩)]⟩ 0 [1] [] 0
    (by intro p hp q hq; fin_cases hp <;> fin_cases hq <;> rfl)).1.2
  exact h

/-- A family of map collections sharing the one process-wide `registeredMaps`
counter of `src/translations/mapCollection.js` (the module-level
`let registeredMaps = 0`): the collections of a process, plus the counter. -/
structure World (α : Type u) where
  collections : List (MapCollection α)
  registeredMaps : Int

/-- `register` invoked on the `i`-th collection of the process, threading the
process-wide counter.  An out-of-range `i` leaves the world unchanged (a call
needs an existing collection to be invoked on). -/
def World.register {α : Type u} (w : World α) (i : Nat) (uniqueName : String)
    (map : IndexMap α) : World α :=
  match w.collections[i]? with
  | some c =>
      let r := c.register w.registeredMaps uniqueName map
      { collections := w.collections.set i r.1, registeredMaps := r.2 }
  | none => w

/-- `unregister` invoked on the `i`-th collection of the process. -/
def World.unregister {α : Type u} (w : World α) (i : Nat) (name : String) :
    World α :=
  match w.collections[i]? with
  | some c =>
      let r := c.unregister w.registeredMaps name
      { collections := w.collections.set i r.1, registeredMaps := r.2 }
  | none => w

/-- Perform a list of registrations `(collection, name, map)` in order. -/
def World.registerAll {α : Type u} (w : World α)
    (plan : List (Nat × String × IndexMap α)) : World α :=
  plan.foldl (fun w p => w.register p.1 p.2.1 p.2.2) w

/-- Perform a list of unregistrations `(collection, name)` in order. -/
def World.unregisterAll {α : Type u} (w : World α)
    (names : List (Nat × String)) : World α :=
  names.foldl (fun w p => w.unregister p.1 p.2) w

/-- Whether the name `k.2` is currently registered in collection `k.1`. -/
def World.present {α : Type u} (w : World α) (k : Nat × String) : Bool :=
  match w.collections[k.1]? with
  | some c => c.mappings.any (fun p => p.1 == k.2)
  | none => false

lemma eraseP_any_of_ne {β : Type u} (l : List (String × β)) (n nn : String)
    (h : nn ≠ n) :
    (l.eraseP (fun p => p.1 == n)).any (fun p => p.1 == nn) =
      l.any (fun p => p.1 == nn) := by
  induction l with
  | nil => rfl
  | cons x xs ih =>
      rw [List.eraseP_cons]
      rcases Bool.eq_false_or_eq_true (x.1 == n) with hx | hx
      · have hnn : (x.1 == nn) = false := by
          have hxn : x.1 = n := by simpa using hx
          simp [hxn, (Ne.symm h)]
        simp only [hx, cond_true, List.any_cons, hnn, Bool.false_or]
      · simp only [hx, cond_false, List.any_cons, ih]

lemma World.register_collections_length {α : Type u} (w : World α) (i : Nat)
    (n : String) (m : IndexMap α) :
    (w.register i n m).collections.length = w.collections.length := by
  rw [World.register]
  cases h : w.collections[i]? <;> simp

lemma World.register_fresh {α : Type u} (w : World α) (i : Nat) (n : String)
    (m : IndexMap α) (hi : i < w.collections.length)
    (hp : w.present (i, n) = false) :
    (w.register i n m).registeredMaps = w.registeredMaps + 1 ∧
    (∀ k, ((w.register i n m).present k = true) ↔
      (k = (i, n) ∨ w.present k = true)) := by
  have hc : w.collections[i]? = some w.collections[i] :=
    (List.getElem?_eq_some_getElem_iff _ _ hi).mpr trivial
  have hany : (w.collections[i]).mappings.any (fun p => p.1 == n) = false := by
    rw [World.present, hc] at hp
    exact hp
  have hreg : (w.collections[i]).register w.registeredMaps n m =
      ({ mappings := (w.collections[i]).mappings ++ [(n, m)] },
        w.registeredMaps + 1) := by
    rw [MapCollection.register, if_pos hany]
  rw [World.register, hc]
  simp only [hreg]
  refine ⟨by trivial, ?_⟩
  intro k
  rcases k with ⟨ki, kn⟩
  by_cases hki : ki = i
  · subst hki
    rw [World.present]
    simp only [List.getElem?_set_self hi]
    simp only [List.any_append, List.any_cons, List.any_nil, Bool.or_false]
    by_cases hkn : kn = n
    · subst hkn
      simp [hany]
    · rw [World.present, hc]
      have : (n == kn) = false := by simp [Ne.symm hkn]
      simp [this, hkn]
  · rw [World.present, World.present]
    simp only [List.getElem?_set_ne (fun h => hki (h.symm)), Prod.mk.injEq]
    constructor
    · exact fun h => Or.inr h
    · rintro (⟨h₁, h₂⟩ | h)
      · exact absurd h₁ hki
      · exact h

lemma World.unregister_present {α : Type u} (w : World α) (i : Nat) (n : String)
    (hp : w.present (i, n) = true) :
    (w.unregister i n).registeredMaps = w.registeredMaps - 1 ∧
    (∀ k, k ≠ (i, n) →
      ((w.unregister i n).present k = true ↔ w.present k = true)) := by
  have hi : i < w.collections.length := by
    by_contra hi
    rw [World.present, List.getElem?_eq_none_iff.mpr (by omega)] at hp
    exact Bool.noConfusion hp
  have hc : w.collections[i]? = some w.collections[i] :=
    (List.getElem?_eq_some_getElem_iff _ _ hi).mpr trivial
  have hany : (w.collections[i]).mappings.any (fun p => p.1 == n) = true := by
    rw [World.present, hc] at hp
    exact hp
  have hunreg : (w.collections[i]).unregister w.registeredMaps n =
      ({ mappings := (w.collections[i]).mappings.eraseP (fun p => p.1 == n) },
        w.registeredMaps - 1) := by
    rw [MapCollection.unregister, if_pos hany]
  rw [World.unregister, hc]
  simp only [hunreg]
  refine ⟨by trivial, ?_⟩
  rintro ⟨ki, kn⟩ hk
  by_cases hki : ki = i
  · subst hki
    have hkn : kn ≠ n := fun h => hk (by rw [h])
    rw [World.present, World.present, hc]
    simp only [List.getElem?_set_self hi]
    rw [eraseP_any_of_ne _ _ _ hkn]
  · rw [World.present, World.present]
    simp only [List.getElem?_set_ne (fun h => hki (h.symm))]

lemma World.registerAll_spec {α : Type u}
    (plan : List (Nat × String × IndexMap α)) :
    ∀ w : World α,
      (plan.map (fun p => (p.1, p.2.1))).Nodup →
      (∀ p ∈ plan, p.1 < w.collections.length ∧
        w.present (p.1, p.2.1) = false) →
      (w.registerAll plan).registeredMaps = w.registeredMaps + plan.length ∧
      (∀ k, ((w.registerAll plan).present k = true) ↔
        (k ∈ plan.map (fun p => (p.1, p.2.1)) ∨ w.present k = true)) := by
  induction plan with
  | nil =>
      intro w _ _
      exact ⟨by simp [World.registerAll], by simp [World.registerAll]⟩
  | cons p plan ih =>
      intro w hnodup hfresh
      obtain ⟨hi, hp⟩ := hfresh p (by simp)
      have hstep := World.register_fresh w p.1 p.2.1 p.2.2 hi hp
      have hlen := World.register_collections_length w p.1 p.2.1 p.2.2
      simp only [List.map_cons, List.nodup_cons] at hnodup
      have hfresh' : ∀ q ∈ plan, q.1 < (w.register p.1 p.2.1 p.2.2).collections.length ∧
          (w.register p.1 p.2.1 p.2.2).present (q.1, q.2.1) = false := by
        intro q hq
        obtain ⟨hqi, hqp⟩ := hfresh q (by simp [hq])
        refine ⟨by rw [hlen]; exact hqi, ?_⟩
        rw [Bool.eq_false_iff]
        intro hcontra
        rcases (hstep.2 (q.1, q.2.1)).mp hcontra with heq | hold
        · exact hnodup.1 (heq ▸ List.mem_map_of_mem (fun r => (r.1, r.2.1)) hq)
        · rw [hold] at hqp
          exact Bool.noConfusion hqp
      have hrec := ih (w.register p.1 p.2.1 p.2.2) hnodup.2 hfresh'
      have hfold : (w.registerAll (p :: plan)) =
          ((w.register p.1 p.2.1 p.2.2).registerAll plan) := rfl
      constructor
      · rw [hfold, hrec.1, hstep.1]
        simp only [List.length_cons]
        omega
      · intro k
        rw [hfold, hrec.2 k]
        constructor
        · rintro (hmem | hpres)
          · exact Or.inl (by simp [hmem])
          · rcases (hstep.2 k).mp hpres with heq | hold
            · exact Or.inl (by simp [heq])
            · exact Or.inr hold
        · rintro (hmem | hpres)
          · simp only [List.map_cons, List.mem_cons] at hmem
            rcases hmem with heq | hmem
            · exact Or.inr ((hstep.2 k).mpr (Or.inl heq))
            · exact Or.inl hmem
          · exact Or.inr ((hstep.2 k).mpr (Or.inr hpres))

lemma World.unregisterAll_spec {α : Type u} (names : List (Nat × String)) :
    ∀ w : World α, names.Nodup →
      (∀ k ∈ names, w.present k = true) →
      (w.unregisterAll names).registeredMaps =
        w.registeredMaps - names.length := by
  induction names with
  | nil => intro w _ _; simp [World.unregisterAll]
  | cons k names ih =>
      intro w hnodup hpres
      have hk := hpres k (by simp)
      have hstep := World.unregister_present w k.1 k.2 (by
        rw [show ((k.1, k.2) : Nat × String) = k from rfl]
        exact hk)
      rw [List.nodup_cons] at hnodup
      have hpres' : ∀ q ∈ names, (w.unregister k.1 k.2).present q = true := by
        intro q hq
        have hqk : q ≠ (k.1, k.2) := by
          intro h
          apply hnodup.1
          have : q = k := h
          rw [← this]
          exact hq
        exact (hstep.2 q hqk).mpr (hpres q (by simp [hq]))
      have hfold : (w.unregisterAll (k :: names)) =
          ((w.unregister k.1 k.2).unregisterAll names) := rfl
      rw [hfold, ih _ hnodup.2 hpres', hstep.1]
      simp only [List.length_cons]
      omega

/-- C8: registering `N` maps under fresh names — names not registered in their
target collections, no two registrations aimed at the same name of the same
collection — across any number of collections and then unregistering all of
them, in any order, restores the process-wide `registeredMaps` counter to its
starting value.  Moreover the counter is incremented exactly when `register`
stores a map under a not-yet-registered name, and decremented exactly when
`unregister` removes a currently registered name. -/
theorem registeredMaps_counter_roundtrip {α : Type u} :
    (∀ (w : World α) (plan : List (Nat × String × IndexMap α))
        (unregs : List (Nat × String)),
      (plan.map (fun p => (p.1, p.2.1))).Nodup →
      (∀ p ∈ plan, p.1 < w.collections.length ∧
        w.present (p.1, p.2.1) = false) →
      unregs.Perm (plan.map (fun p => (p.1, p.2.1))) →
      ((w.registerAll plan).unregisterAll unregs).registeredMaps =
        w.registeredMaps) ∧
    (∀ (c : MapCollection α) (counter : Int) (n : String) (m : IndexMap α),
      (c.register counter n m).2 =
        if c.mappings.any (fun p => p.1 == n) then counter else counter + 1) ∧
    (∀ (c : MapCollection α) (counter : Int) (n : String),
      (c.unregister counter n).2 =
        if c.mappings.any (fun p => p.1 == n) then counter - 1 else counter) := by
  refine ⟨?_, ?_, ?_⟩
  · intro w plan unregs hnodup hfresh hperm
    have hreg := World.registerAll_spec plan w hnodup hfresh
    have hpres : ∀ k ∈ unregs, (w.registerAll plan).present k = true := by
      intro k hk
      exact (hreg.2 k).mpr (Or.inl (hperm.mem_iff.mp hk))
    have hnodup' : unregs.Nodup := hperm.nodup_iff.mpr hnodup
    rw [World.unregisterAll_spec unregs _ hnodup' hpres, hreg.1,
      hperm.length_eq, List.length_map]
    omega
  · intro c counter n m
    rw [MapCollection.register]
    rcases Bool.eq_false_or_eq_true (c.mappings.any (fun p => p.1 == n)) with h | h <;>
      simp [h]
  · intro c counter n
    rw [MapCollection.unregister]
    rcases Bool.eq_false_or_eq_true (c.mappings.any (fun p => p.1 == n)) with h | h <;>
      simp [h]

/-- C8 witness: from a world with one empty collection and counter 5,
registering maps "a" and "b" and then unregistering them in the reverse order
leaves the counter at 5; the per-call counter equations instantiated on an
empty collection. -/
theorem registeredMaps_counter_roundtrip_witness :
    ((World.unregisterAll
        (World.registerAll
          (⟨[⟨[]⟩], 5⟩ : World Bool)
          [(0, "a", ⟨[], ValueOrFactory.value true⟩),
           (0, "b", ⟨[], ValueOrFactory.value false⟩)])
        [(0, "b"), (0, "a")]).registeredMaps = 5) ∧
    ((MapCollection.register (⟨[]⟩ : MapCollection Bool) 5 "a"
        ⟨[], ValueOrFactory.value true⟩).2 = 6) ∧
    ((MapCollection.unregister (⟨[]⟩ : MapCollection Bool) 5 "a").2 = 5) := by
  refine ⟨?_, ?_, ?_⟩
  · exact (registeredMaps_counter_roundtrip (α := Bool)).1
      ⟨[⟨[]⟩], 5⟩
      [(0, "a", ⟨[], ValueOrFactory.value true⟩),
       (0, "b", ⟨[], ValueOrFactory.value false⟩)]
      [(0, "b"), (0, "a")]
      (by simp) (by intro p hp; fin_cases hp <;> exact ⟨by decide, rfl⟩)
      (by decide)
  · rw [(registeredMaps_counter_roundtrip (α := Bool)).2.1]; rfl
  · rw [(registeredMaps_counter_roundtrip (α := Bool)).2.2]; rfl

/-- Modelled from the spec: `CellCoords` from
`walkontable/src/cell/coords.js` is not in the snapshot; per the spec it is
`{ row : integer, col : integer }`, possibly negative for header cells. -/
structure CellCoords where
  row : Int
  col : Int
deriving DecidableEq, Repr

/-- Modelled from the spec: value-based equality of `CellCoords`
(`isEqual` compares `row` and `col`). -/
def CellCoords.isEqual (a b : CellCoords) : Bool :=
  a.row == b.row && a.col == b.col

/-- Modelled from the spec: `CellRange` from `walkontable/src/cell/range.js` is
not in the snapshot; per the spec it is a pair of corner coordinates, the
anchor `from` and the head `to` of a drag selection (`from` is a Lean keyword,
hence the trailing underscores). -/
structure CellRange where
  from_ : CellCoords
  to_ : CellCoords
deriving DecidableEq, Repr

/-- Modelled from the spec: `new CellRange(coords)` used by `Selection.add`
establishes a one-cell range. -/
def CellRange.single (coords : CellCoords) : CellRange :=
  ⟨coords, coords⟩

/-- Modelled from the spec: `getTopLeftCorner` is the component-wise minimum of
`from`/`to`, independent of which of the two is geometrically smaller. -/
def CellRange.getTopLeftCorner (r : CellRange) : CellCoords :=
  ⟨min r.from_.row r.to_.row, min r.from_.col r.to_.col⟩

/-- Modelled from the spec: `getBottomRightCorner` is the component-wise
maximum of `from`/`to`. -/
def CellRange.getBottomRightCorner (r : CellRange) : CellCoords :=
  ⟨max r.from_.row r.to_.row, max r.from_.col r.to_.col⟩

/-- Modelled from the spec: `expand(coords)` redefines `from`/`to` to the
bounding box of the current range and the new coordinate. -/
def CellRange.expand (r : CellRange) (coords : CellCoords) : CellRange :=
  let topLeft := r.getTopLeftCorner
  let bottomRight := r.getBottomRightCorner
  ⟨⟨min topLeft.row coords.row, min topLeft.col coords.col⟩,
   ⟨max bottomRight.row coords.row, max bottomRight.col coords.col⟩⟩

/-- The settings consulted by `Selection`: presence of a border configuration
and the highlight class names (absent class names are JS falsy values).  The
`markIntersections` flag and the layer level only influence which class string
is attached, which the embedding does not track, so they are omitted. -/
structure SelectionSettings where
  border : Bool
  className : Option String
  highlightHeaderClassName : Option String
  highlightRowClassName : Option String
  highlightColumnClassName : Option String

/-- The data part of the `borderEdgesDescriptor` array built by `draw`
(`[this.settings, firstTd, lastTd, hasTopEdge, hasRightEdge, hasBottomEdge,
hasLeftEdge]`): the two representative corner cells, identified by their
source coordinates, and the four edge flags.  The leading `settings` member is
the selection's own settings object and carries no per-draw information. -/
structure BorderEdgesDescriptorData where
  firstTd : Int × Int
  lastTd : Int × Int
  hasTopEdge : Bool
  hasRightEdge : Bool
  hasBottomEdge : Bool
  hasLeftEdge : Bool
deriving DecidableEq, Repr

/-- Embedding of the state of a `Selection` instance from
`src/3rdparty/walkontable/src/selection.js`: the settings, the owned cell range
(`null` when empty), and the last computed border-edges descriptor (`[]`, i.e.
`none`, when none was computed).  The per-viewport selection-handle map and the
className bookkeeping touch only the DOM and are omitted. -/
structure Selection where
  settings : SelectionSettings
  cellRange : Option CellRange
  borderEdgesDescriptor : Option BorderEdgesDescriptorData

/-- Embedding of `Selection.prototype.isEmpty`: true iff `cellRange` is null. -/
def Selection.isEmpty (s : Selection) : Bool :=
  s.cellRange.isNone

/-- Embedding of `Selection.prototype.add`: establish a one-cell range when
empty, otherwise expand the existing range to include the coordinate. -/
def Selection.add (s : Selection) (coords : CellCoords) : Selection :=
  match s.cellRange with
  | none => { s with cellRange := some (CellRange.single coords) }
  | some r => { s with cellRange := some (r.expand coords) }

/-- Embedding of `Selection.prototype.replace`: when non-empty, replace `from`
by `newCoords` when `oldCoords` value-equals it, else replace `to` when
`oldCoords` value-equals it, else do nothing; the boolean reports whether a
replacement occurred. -/
def Selection.replace (s : Selection) (oldCoords newCoords : CellCoords) :
    Selection × Bool :=
  match s.cellRange with
  | some r =>
      if r.from_.isEqual oldCoords then
        ({ s with cellRange := some { r with from_ := newCoords } }, true)
      else if r.to_.isEqual oldCoords then
        ({ s with cellRange := some { r with to_ := newCoords } }, true)
      else (s, false)
  | none => (s, false)

/-- Embedding of `Selection.prototype.clear`. -/
def Selection.clear (s : Selection) : Selection :=
  { s with cellRange := none }

/-- Embedding of `Selection.prototype.getCorners`:
`[topLeft.row, topLeft.col, bottomRight.row, bottomRight.col]`.  The source
reads `this.cellRange` unconditionally and throws on a null range; `none`
models that exceptional case. -/
def Selection.getCorners (s : Selection) : Option (List Int) :=
  s.cellRange.map (fun r =>
    [r.getTopLeftCorner.row, r.getTopLeftCorner.col,
     r.getBottomRightCorner.row, r.getBottomRightCorner.col])

/-- Embedding of `Selection.prototype.getBorderEdgesDescriptor`. -/
def Selection.getBorderEdgesDescriptor (s : Selection) :
    Option BorderEdgesDescriptorData :=
  s.borderEdgesDescriptor

lemma Selection.add_none (s : Selection) (coords : CellCoords)
    (h : s.cellRange = none) :
    s.add coords = { s with cellRange := some (CellRange.single coords) } := by
  rw [Selection.add, h]

lemma Selection.add_some (s : Selection) (coords : CellCoords) (r : CellRange)
    (h : s.cellRange = some r) :
    s.add coords = { s with cellRange := some (r.expand coords) } := by
  rw [Selection.add, h]

lemma Selection.foldl_add_some (cs : List CellCoords) :
    ∀ (s : Selection) (r : CellRange), s.cellRange = some r →
      cs.foldl Selection.add s =
        { s with cellRange := some (cs.foldl CellRange.expand r) } := by
  induction cs with
  | nil =>
      intro s r h
      cases s
      simp only [List.foldl_nil]
      simp only at h
      rw [h]
  | cons x cs ih =>
      intro s r h
      rw [List.foldl_cons, Selection.add_some s x r h,
        ih _ (r.expand x) rfl, List.foldl_cons]

lemma CellRange.expand_corners (r : CellRange) (x : CellCoords) :
    (r.expand x).getTopLeftCorner.row = min r.getTopLeftCorner.row x.row ∧
    (r.expand x).getTopLeftCorner.col = min r.getTopLeftCorner.col x.col ∧
    (r.expand x).getBottomRightCorner.row = max r.getBottomRightCorner.row x.row ∧
    (r.expand x).getBottomRightCorner.col = max r.getBottomRightCorner.col x.col := by
  simp only [CellRange.expand, CellRange.getTopLeftCorner,
    CellRange.getBottomRightCorner]
  refine ⟨by omega, by omega, by omega, by omega⟩

lemma CellRange.foldl_expand_corners (cs : List CellCoords) :
    ∀ r : CellRange,
      (cs.foldl CellRange.expand r).getTopLeftCorner.row =
        (cs.map CellCoords.row).foldl min r.getTopLeftCorner.row ∧
      (cs.foldl CellRange.expand r).getTopLeftCorner.col =
        (cs.map CellCoords.col).foldl min r.getTopLeftCorner.col ∧
      (cs.foldl CellRange.expand r).getBottomRightCorner.row =
        (cs.map CellCoords.row).foldl max r.getBottomRightCorner.row ∧
      (cs.foldl CellRange.expand r).getBottomRightCorner.col =
        (cs.map CellCoords.col).foldl max r.getBottomRightCorner.col := by
  induction cs with
  | nil => intro r; exact ⟨rfl, rfl, rfl, rfl⟩
  | cons x cs ih =>
      intro r
      obtain ⟨h₁, h₂, h₃, h₄⟩ := ih (r.expand x)
      obtain ⟨e₁, e₂, e₃, e₄⟩ := CellRange.expand_corners r x
      refine ⟨?_, ?_, ?_, ?_⟩ <;>
        simp only [List.foldl_cons, List.map_cons, h₁, h₂, h₃, h₄, e₁, e₂, e₃, e₄]

lemma foldl_min_spec (as : List Int) :
    ∀ a : Int, as.foldl min a ∈ a :: as ∧ ∀ b ∈ a :: as, as.foldl min a ≤ b := by
  induction as with
  | nil =>
      intro a
      refine ⟨by simp, ?_⟩
      intro b hb
      simp only [List.mem_singleton] at hb
      simp [hb]
  | cons x as ih =>
      intro a
      obtain ⟨hmem, hle⟩ := ih (min a x)
      constructor
      · simp only [List.foldl_cons]
        rcases List.mem_cons.mp hmem with h | h
        · rcases min_choice a x with hax | hax
          · exact List.mem_cons.mpr (Or.inl (h.trans hax))
          · exact List.mem_cons.mpr (Or.inr (List.mem_cons.mpr (Or.inl (h.trans hax))))
        · exact List.mem_cons.mpr (Or.inr (List.mem_cons.mpr (Or.inr h)))
      · intro b hb
        simp only [List.foldl_cons]
        have hfold : as.foldl min (min a x) ≤ min a x := hle _ (by simp)
        rcases List.mem_cons.mp hb with hba | hb'
        · rw [hba]
          exact le_trans hfold (min_le_left _ _)
        · rcases List.mem_cons.mp hb' with hbx | hb''
          · rw [hbx]
            exact le_trans hfold (min_le_right _ _)
          · exact hle b (by simp [hb''])

lemma foldl_max_spec (as : List Int) :
    ∀ a : Int, as.foldl max a ∈ a :: as ∧ ∀ b ∈ a :: as, b ≤ as.foldl max a := by
  induction as with
  | nil =>
      intro a
      refine ⟨by simp, ?_⟩
      intro b hb
      simp only [List.mem_singleton] at hb
      simp [hb]
  | cons x as ih =>
      intro a
      obtain ⟨hmem, hle⟩ := ih (max a x)
      constructor
      · simp only [List.foldl_cons]
        rcases List.mem_cons.mp hmem with h | h
        · rcases max_choice a x with hax | hax
          · exact List.mem_cons.mpr (Or.inl (h.trans hax))
          · exact List.mem_cons.mpr (Or.inr (List.mem_cons.mpr (Or.inl (h.trans hax))))
        · exact List.mem_cons.mpr (Or.inr (List.mem_cons.mpr (Or.inr h)))
      · intro b hb
        simp only [List.foldl_cons]
        have hfold : max a x ≤ as.foldl max (max a x) := hle _ (by simp)
        rcases List.mem_cons.mp hb with hba | hb'
        · rw [hba]
          exact le_trans (le_max_left _ _) hfold
        · rcases List.mem_cons.mp hb' with hbx | hb''
          · rw [hbx]
            exact le_trans (le_max_right _ _) hfold
          · exact hle b (by simp [hb''])

lemma foldl_min_perm {a b : Int} {as bs : List Int}
    (h : (a :: as).Perm (b :: bs)) : as.foldl min a = bs.foldl min b := by
  obtain ⟨hmem₁, hle₁⟩ := foldl_min_spec as a
  obtain ⟨hmem₂, hle₂⟩ := foldl_min_spec bs b
  exact le_antisymm (hle₁ _ (h.mem_iff.mpr hmem₂)) (hle₂ _ (h.mem_iff.mp hmem₁))

lemma foldl_max_perm {a b : Int} {as bs : List Int}
    (h : (a :: as).Perm (b :: bs)) : as.foldl max a = bs.foldl max b := by
  obtain ⟨hmem₁, hle₁⟩ := foldl_max_spec as a
  obtain ⟨hmem₂, hle₂⟩ := foldl_max_spec bs b
  exact le_antisymm (hle₂ _ (h.mem_iff.mp hmem₁)) (hle₁ _ (h.mem_iff.mpr hmem₂))

/-- C4: adding a finite non-empty collection of coordinates `c :: cs` one at a
time via `Selection.add` to a selection with no established range makes
`getCorners` return `[minimum row, minimum column, maximum row, maximum
column]` over all added coordinates (the folds below compute exactly these
minima/maxima), and the result is the same for every order in which the
coordinates are added; by construction of the corner folds it depends only on
the coordinate values, not on which of `from`/`to` holds the geometrically
larger one. -/
theorem selection_add_corners_minmax (c : CellCoords) (cs : List CellCoords)
    (s : Selection) (hs : s.cellRange = none) :
    ((c :: cs).foldl Selection.add s).getCorners =
      some [(cs.map CellCoords.row).foldl min c.row,
            (cs.map CellCoords.col).foldl min c.col,
            (cs.map CellCoords.row).foldl max c.row,
            (cs.map CellCoords.col).foldl max c.col] ∧
    (∀ (l₂ : List CellCoords) (s₂ : Selection),
      (c :: cs).Perm l₂ → s₂.cellRange = none →
      (l₂.foldl Selection.add s₂).getCorners =
        ((c :: cs).foldl Selection.add s).getCorners) := by
  have hmain : ∀ (d : CellCoords) (ds : List CellCoords) (s₃ : Selection),
      s₃.cellRange = none →
      ((d :: ds).foldl Selection.add s₃).getCorners =
        some [(ds.map CellCoords.row).foldl min d.row,
              (ds.map CellCoords.col).foldl min d.col,
              (ds.map CellCoords.row).foldl max d.row,
              (ds.map CellCoords.col).foldl max d.col] := by
    intro d ds s₃ hnone
    rw [List.foldl_cons, Selection.add_none s₃ d hnone,
      Selection.foldl_add_some ds _ (CellRange.single d) rfl]
    obtain ⟨g₁, g₂, g₃, g₄⟩ := CellRange.foldl_expand_corners ds (CellRange.single d)
    have hcor : ∀ R : CellRange,
        Selection.getCorners { s₃ with cellRange := some R } =
          some [R.getTopLeftCorner.row, R.getTopLeftCorner.col,
            R.getBottomRightCorner.row, R.getBottomRightCorner.col] :=
      fun R => rfl
    rw [hcor, g₁, g₂, g₃, g₄]
    simp [CellRange.single, CellRange.getTopLeftCorner,
      CellRange.getBottomRightCorner]
  refine ⟨hmain c cs s hs, ?_⟩
  intro l₂ s₂ hperm hs₂
  cases l₂ with
  | nil => exact absurd hperm.eq_nil (by simp)
  | cons d ds =>
      rw [hmain c cs s hs, hmain d ds s₂ hs₂]
      have hrow : ((c :: cs).map CellCoords.row).Perm ((d :: ds).map CellCoords.row) :=
        hperm.map CellCoords.row
      have hcol : ((c :: cs).map CellCoords.col).Perm ((d :: ds).map CellCoords.col) :=
        hperm.map CellCoords.col
      simp only [List.map_cons] at hrow hcol
      rw [foldl_min_perm hrow, foldl_min_perm hcol,
        foldl_max_perm hrow, foldl_max_perm hcol]

/-- C4 witness: scenario 3 of the spec — adding `{row 2, col 2}` then
`{row 5, col 1}` to an empty selection yields corners `[2, 1, 5, 2]`, and
adding the two coordinates in the opposite order yields the same corners. -/
theorem selection_add_corners_minmax_witness :
    (([⟨2, 2⟩, ⟨5, 1⟩] : List CellCoords).foldl Selection.add
      ⟨⟨false, none, none, none, none⟩, none, none⟩).getCorners =
        some [2, 1, 5, 2] ∧
    (([⟨5, 1⟩, ⟨2, 2⟩] : List CellCoords).foldl Selection.add
      ⟨⟨false, none, none, none, none⟩, none, none⟩).getCorners =
        some [2, 1, 5, 2] := by
  have h := selection_add_corners_minmax ⟨2, 2⟩ [⟨5, 1⟩]
    ⟨⟨false, none, none, none, none⟩, none, none⟩ rfl
  have h₂ := h.2 [⟨5, 1⟩, ⟨2, 2⟩]
    ⟨⟨false, none, none, none, none⟩, none, none⟩ (List.Perm.swap _ _ _) rfl
  refine ⟨by rw [h.1]; rfl, by rw [h₂, h.1]; rfl⟩

/-- C7: on a selection with a non-null range, `replace(oldCoords, newCoords)`
sets `from` to `newCoords` and returns true when `oldCoords` value-equals
`from`; otherwise sets `to` to `newCoords` and returns true when `oldCoords`
value-equals `to`; otherwise leaves the range unchanged and returns false.  In
particular, on the range `from = {1,1}, to = {3,3}`,
`replace({1,1}, {9,9})` updates `from` to `{9,9}` and returns true, and a
second call with the old `{1,1}` returns false. -/
theorem selection_replace_spec :
    (∀ (s : Selection) (r : CellRange) (oldCoords newCoords : CellCoords),
      s.cellRange = some r →
      (r.from_.isEqual oldCoords = true →
        s.replace oldCoords newCoords =
          ({ s with cellRange := some { r with from_ := newCoords } }, true)) ∧
      (r.from_.isEqual oldCoords = false → r.to_.isEqual oldCoords = true →
        s.replace oldCoords newCoords =
          ({ s with cellRange := some { r with to_ := newCoords } }, true)) ∧
      (r.from_.isEqual oldCoords = false → r.to_.isEqual oldCoords = false →
        s.replace oldCoords newCoords = (s, false))) ∧
    (∀ st d,
      (Selection.replace ⟨st, some ⟨⟨1, 1⟩, ⟨3, 3⟩⟩, d⟩ ⟨1, 1⟩ ⟨9, 9⟩ =
        (⟨st, some ⟨⟨9, 9⟩, ⟨3, 3⟩⟩, d⟩, true)) ∧
      (Selection.replace
        (Selection.replace ⟨st, some ⟨⟨1, 1⟩, ⟨3, 3⟩⟩, d⟩ ⟨1, 1⟩ ⟨9, 9⟩).1
        ⟨1, 1⟩ ⟨9, 9⟩).2 = false) := by
  constructor
  · intro s r oldCoords newCoords hr
    refine ⟨?_, ?_, ?_⟩
    · intro h₁
      rw [Selection.replace, hr]
      simp only [h₁, if_true]
    · intro h₁ h₂
      rw [Selection.replace, hr]
      simp only [h₁, h₂, if_false, if_true, Bool.false_eq_true]
    · intro h₁ h₂
      rw [Selection.replace, hr]
      simp only [h₁, h₂, if_false, Bool.false_eq_true]
  · intro st d
    refine ⟨?_, ?_⟩ <;> rfl

/-- C7 witness: instantiation on a concrete range `from = {1,1}, to = {3,3}`
with plain settings — the first `replace` call updates `from` and returns
true, and the repeated call returns false. -/
theorem selection_replace_spec_witness :
    Selection.replace
        ⟨⟨false, none, none, none, none⟩, some ⟨⟨1, 1⟩, ⟨3, 3⟩⟩, none⟩
        ⟨1, 1⟩ ⟨9, 9⟩ =
      (⟨⟨false, none, none, none, none⟩, some ⟨⟨9, 9⟩, ⟨3, 3⟩⟩, none⟩, true) ∧
    (Selection.replace
      (Selection.replace
        ⟨⟨false, none, none, none, none⟩, some ⟨⟨1, 1⟩, ⟨3, 3⟩⟩, none⟩
        ⟨1, 1⟩ ⟨9, 9⟩).1 ⟨1, 1⟩ ⟨9, 9⟩).2 = false :=
  selection_replace_spec.2 ⟨false, none, none, none, none⟩ none

/-- The abstract viewport (`wotInstance` together with its `wtTable`) that
`draw` consults: the rendered/visible window bounds, the directional neighbour
tables with their visible bounds, and boolean-valued queries standing for the
DOM lookups (`getCell` answers whether `wtTable.getCell` returns a TD element
rather than a numeric error code; `getCellTopmost` likewise for
`wotInstance.getCell(coords, true)`; header lookups answer whether the header
element exists).  As in the source comments, `firstRenderedRow`/`Column` is
`-1` and `lastRenderedRow`/`Column` is `null` — irrelevant here — when nothing
is rendered; the embedding carries plain integers, which only matters when the
corresponding rendered count is non-zero, the only case the guarded code
consumes them in. -/
structure Wot where
  renderedRows : Nat
  renderedColumns : Nat
  firstRenderedRow : Int
  firstRenderedColumn : Int
  lastRenderedRow : Int
  lastRenderedColumn : Int
  firstVisibleRow : Int
  lastVisibleRow : Int
  firstVisibleColumn : Int
  lastVisibleColumn : Int
  hasEastNeighbourTable : Bool
  eastNeighbourFirstVisibleColumn : Int
  hasSouthNeighbourTable : Bool
  southNeighbourFirstVisibleRow : Int
  hasNorthNeighbourTable : Bool
  northNeighbourLastVisibleRow : Int
  getCell : Int → Int → Bool
  getCellTopmost : Int → Int → Bool
  hasColumnHeader : Int → Bool
  hasRowHeader : Int → Bool
  rowFilterRenderedToSource : Int → Int
  columnFilterRenderedToSource : Int → Int

/-- `renderingOffsetEast` computed at the top of `draw`: `1` when the east
neighbour table's first visible column directly continues this window's last
visible column, else `0`. -/
def Wot.renderingOffsetEast (w : Wot) : Int :=
  if w.hasEastNeighbourTable &&
      (w.eastNeighbourFirstVisibleColumn == w.lastVisibleColumn + 1) then 1
  else 0

/-- `renderingOffsetSouth` computed at the top of `draw`. -/
def Wot.renderingOffsetSouth (w : Wot) : Int :=
  if w.hasSouthNeighbourTable &&
      (w.southNeighbourFirstVisibleRow == w.lastVisibleRow + 1) then 1
  else 0

/-- `renderingOffsetNorth` computed at the top of `draw`: `-1` when the north
neighbour table's last visible row directly precedes this window's first
visible row, else `0`. -/
def Wot.renderingOffsetNorth (w : Wot) : Int :=
  if w.hasNorthNeighbourTable &&
      (w.northNeighbourLastVisibleRow == w.firstVisibleRow - 1) then -1
  else 0

/-- The ascending integer interval `[a, b]`, i.e. the values visited by a JS
`for (let v = a; v <= b; v += 1)` loop. -/
def intRange (a b : Int) : List Int :=
  (List.range (b - a + 1).toNat).map (fun k => a + (k : Int))

/-- Embedding of `Selection.prototype.getRelevantCell`: first query
`wtTable.getCell`; on a numeric result retry via
`wotInstance.getCell(coords, true)` (the directional `container` variable
computed from the rendered bounds is dead code in the source — it is assigned
but never used); a still-numeric result becomes `undefined`.  The rendered
bounds are passed through to mirror the source signature. -/
def Selection.getRelevantCell (w : Wot) (row col : Int)
    (firstRenderedRow lastRenderedRow lastRenderedColumn : Int) :
    Option (Int × Int) :=
  if w.getCell row col then some (row, col)
  else if w.getCellTopmost row col then some (row, col)
  else none

/-- What one call of `Selection.prototype.draw` does to the DOM, recorded as
data: the computed border-edges descriptor and the coordinates of the cells or
headers that receive each family of highlight classes.  Cells are recorded
only where the corresponding DOM element exists, matching `addClassAtCoords`
and `addClassIfElemExists`; the class strings themselves (including the
`markIntersections` class-name generation, which probes prior DOM state) and
the `onAfterDrawSelection` extra class are not tracked — the extra class is
applied to the same body-cell coordinates. -/
structure DrawResult where
  borderEdgesDescriptor : Option BorderEdgesDescriptorData
  bodyCells : List (Int × Int)
  columnHeaderColumns : List Int
  columnBandCells : List (Int × Int)
  rowHeaderRows : List Int
  rowBandCells : List (Int × Int)

/-- Embedding of `Selection.prototype.draw` from
`src/3rdparty/walkontable/src/selection.js`.

On an empty selection it only resets the stored descriptor (the
selection-handle `disappear` call touches the DOM alone).  Otherwise it
computes the logical corners, the seamless-neighbour rendering offsets, the
clipped highlight bounds (`Math.max`/`Math.min` of the logical corners with
the offset-extended rendered bounds), then: the column-header/column-band
classes, the row-header/row-band classes, the border-edges descriptor (only
when a border is configured and the clipped rectangle is non-inverted in both
axes, and only when both representative corner cells resolve), and the body
selection classes over the clipped rectangle (the inner bounds re-check of
the source is a tautology inside the loop and the `onBeforeDrawBorders` hook
and selection-handle repositioning exchange no data with this computation).
The first component is the selection with its `borderEdgesDescriptor` field
updated, the second the recorded DOM effects. -/
def Selection.draw (s : Selection) (w : Wot) : Selection × DrawResult :=
  match s.cellRange with
  | none =>
      ({ s with borderEdgesDescriptor := none }, ⟨none, [], [], [], [], []⟩)
  | some r =>
      let firstRow := r.getTopLeftCorner.row
      let firstColumn := r.getTopLeftCorner.col
      let lastRow := r.getBottomRightCorner.row
      let lastColumn := r.getBottomRightCorner.col
      let highlightFirstRenderedRow :=
        max firstRow (w.firstRenderedRow + w.renderingOffsetNorth)
      let highlightFirstRenderedColumn := max firstColumn w.firstRenderedColumn
      let highlightLastRenderedRow :=
        min lastRow (w.lastRenderedRow + w.renderingOffsetSouth)
      let highlightLastRenderedColumn :=
        min lastColumn (w.lastRenderedColumn + w.renderingOffsetEast)
      let columnHeaderColumns :=
        if w.renderedColumns ≠ 0 ∧ (s.settings.highlightHeaderClassName.isSome ∨
            s.settings.highlightColumnClassName.isSome) then
          (intRange highlightFirstRenderedColumn highlightLastRenderedColumn).filter
            (fun sourceColumn => w.hasColumnHeader sourceColumn)
        else []
      let columnBandCells :=
        if w.renderedColumns ≠ 0 ∧ (s.settings.highlightHeaderClassName.isSome ∨
            s.settings.highlightColumnClassName.isSome) ∧
            s.settings.highlightColumnClassName.isSome then
          (intRange highlightFirstRenderedColumn highlightLastRenderedColumn).flatMap
            (fun sourceColumn =>
              ((List.range w.renderedRows).map (Int.ofNat)).filterMap
                (fun renderedRow =>
                  if renderedRow < highlightFirstRenderedRow ∨
                      renderedRow > highlightLastRenderedRow then
                    let sourceRow := w.rowFilterRenderedToSource renderedRow
                    if w.getCell sourceRow sourceColumn then
                      some (sourceRow, sourceColumn)
                    else none
                  else none))
        else []
      let rowHeaderRows :=
        if w.renderedRows ≠ 0 ∧ (s.settings.highlightHeaderClassName.isSome ∨
            s.settings.highlightRowClassName.isSome) then
          (intRange highlightFirstRenderedRow highlightLastRenderedRow).filter
            (fun sourceRow => w.hasRowHeader sourceRow)
        else []
      let rowBandCells :=
        if w.renderedRows ≠ 0 ∧ (s.settings.highlightHeaderClassName.isSome ∨
            s.settings.highlightRowClassName.isSome) ∧
            s.settings.highlightRowClassName.isSome then
          (intRange highlightFirstRenderedRow highlightLastRenderedRow).flatMap
            (fun sourceRow =>
              ((List.range w.renderedColumns).map (Int.ofNat)).filterMap
                (fun renderedColumn =>
                  if renderedColumn < highlightFirstRenderedColumn ∨
                      renderedColumn > highlightLastRenderedColumn then
                    let sourceColumn := w.columnFilterRenderedToSource renderedColumn
                    if w.getCell sourceRow sourceColumn then
                      some (sourceRow, sourceColumn)
                    else none
                  else none))
        else []
      let borderDescriptor :=
        if w.renderedRows ≠ 0 ∧ w.renderedColumns ≠ 0 ∧ s.settings.border = true ∧
            highlightFirstRenderedRow ≤ highlightLastRenderedRow ∧
            highlightFirstRenderedColumn ≤ highlightLastRenderedColumn then
          let hasTopEdge := highlightFirstRenderedRow == firstRow
          let hasRightEdge := highlightLastRenderedColumn == lastColumn
          let hasBottomEdge := highlightLastRenderedRow == lastRow
          let hasLeftEdge := highlightFirstRenderedColumn == firstColumn
          let firstTd := Selection.getRelevantCell w highlightFirstRenderedRow
            highlightFirstRenderedColumn w.firstRenderedRow w.lastRenderedRow
            w.lastRenderedColumn
          let lastTd :=
            if highlightFirstRenderedRow = highlightLastRenderedRow ∧
                highlightFirstRenderedColumn = highlightLastRenderedColumn then
              firstTd
            else
              Selection.getRelevantCell w highlightLastRenderedRow
                highlightLastRenderedColumn w.firstRenderedRow w.lastRenderedRow
                w.lastRenderedColumn
          match firstTd, lastTd with
          | some f, some l =>
              some ⟨f, l, hasTopEdge, hasRightEdge, hasBottomEdge, hasLeftEdge⟩
          | _, _ => none
        else none
      let bodyCells :=
        if w.renderedRows ≠ 0 ∧ w.renderedColumns ≠ 0 ∧
            s.settings.className.isSome then
          (intRange highlightFirstRenderedRow highlightLastRenderedRow).flatMap
            (fun sourceRow =>
              (intRange highlightFirstRenderedColumn highlightLastRenderedColumn).filterMap
                (fun sourceColumn =>
                  if w.getCell sourceRow sourceColumn then
                    some (sourceRow, sourceColumn)
                  else none))
        else []
      ({ s with borderEdgesDescriptor := borderDescriptor },
       ⟨borderDescriptor, bodyCells, columnHeaderColumns, columnBandCells,
        rowHeaderRows, rowBandCells⟩)

/-- C5: whenever `draw` emits a border-edges descriptor, its four edge flags
record, for each edge, exactly whether the clipped rendered bound coincides
with the logical selection bound: the top flag is true iff the clipped first
rendered row (`max` of the selection's first row with the offset-extended
first rendered row) equals the selection's first row, and correspondingly for
the right, bottom and left flags. -/
theorem draw_border_edges_flags (s : Selection) (w : Wot) (r : CellRange)
    (d : BorderEdgesDescriptorData) (hr : s.cellRange = some r)
    (hd : ((s.draw w).1).borderEdgesDescriptor = some d) :
    (d.hasTopEdge = true ↔
      max r.getTopLeftCorner.row (w.firstRenderedRow + w.renderingOffsetNorth) =
        r.getTopLeftCorner.row) ∧
    (d.hasRightEdge = true ↔
      min r.getBottomRightCorner.col (w.lastRenderedColumn + w.renderingOffsetEast) =
        r.getBottomRightCorner.col) ∧
    (d.hasBottomEdge = true ↔
      min r.getBottomRightCorner.row (w.lastRenderedRow + w.renderingOffsetSouth) =
        r.getBottomRightCorner.row) ∧
    (d.hasLeftEdge = true ↔
      max r.getTopLeftCorner.col w.firstRenderedColumn =
        r.getTopLeftCorner.col) := by
  rw [Selection.draw] at hd
  rw [hr] at hd
  simp only at hd
  split at hd
  · split at hd
    · rw [Option.some_inj] at hd
      subst hd
      simp [beq_iff_eq]
    · exact Option.noConfusion hd
  · exact Option.noConfusion hd

/-- A concrete fully rendered viewport with rows 0..8 and columns 0..10, no
neighbour tables, every cell and header present, and identity rendered-to-
source translation; used to instantiate the `draw` theorems. -/
def exampleWot : Wot where
  renderedRows := 9
  renderedColumns := 11
  firstRenderedRow := 0
  firstRenderedColumn := 0
  lastRenderedRow := 8
  lastRenderedColumn := 10
  firstVisibleRow := 0
  lastVisibleRow := 8
  firstVisibleColumn := 0
  lastVisibleColumn := 10
  hasEastNeighbourTable := false
  eastNeighbourFirstVisibleColumn := 0
  hasSouthNeighbourTable := false
  southNeighbourFirstVisibleRow := 0
  hasNorthNeighbourTable := false
  northNeighbourLastVisibleRow := 0
  getCell := fun _ _ => true
  getCellTopmost := fun _ _ => false
  hasColumnHeader := fun _ => true
  hasRowHeader := fun _ => true
  rowFilterRenderedToSource := fun renderedRow => renderedRow
  columnFilterRenderedToSource := fun renderedColumn => renderedColumn

/-- Concrete settings with a border configured and a plain body class. -/
def exampleSettings : SelectionSettings :=
  ⟨true, some "area", none, none, none⟩

/-- C5 witness: drawing the single-cell selection at `(5, 5)` against the
fully rendered viewport emits the descriptor whose four flags are all true,
and the theorem instance turns its top flag into the coincidence of the
clipped and logical top bounds. -/
theorem draw_border_edges_flags_witness :
    (((Selection.draw ⟨exampleSettings, some ⟨⟨5, 5⟩, ⟨5, 5⟩⟩, none⟩
        exampleWot).1).borderEdgesDescriptor =
      some ⟨(5, 5), (5, 5), true, true, true, true⟩) ∧
    max (5 : Int) (exampleWot.firstRenderedRow + exampleWot.renderingOffsetNorth) = 5 := by
  have hd : (((Selection.draw ⟨exampleSettings, some ⟨⟨5, 5⟩, ⟨5, 5⟩⟩, none⟩
      exampleWot).1).borderEdgesDescriptor =
        some ⟨(5, 5), (5, 5), true, true, true, true⟩) := by rfl
  exact ⟨hd,
    ((draw_border_edges_flags _ exampleWot ⟨⟨5, 5⟩, ⟨5, 5⟩⟩ _ rfl hd).1).mp rfl⟩

lemma intRange_eq_nil (a b : Int) (h : b < a) : intRange a b = [] := by
  rw [intRange]
  have hz : (b - a + 1).toNat = 0 := by omega
  rw [hz]
  rfl

/-- C6: for a non-empty selection whose clipped range is empty or inverted in
at least one axis after intersection with the rendered window — the clipped
first row exceeds the clipped last row, or likewise for columns — `draw`
applies no body selection classes, stores no border-edges descriptor (so
`getBorderEdgesDescriptor` on the drawn selection gives the empty answer), and,
being a total function, raises no error. -/
theorem draw_empty_clipped_band (s : Selection) (w : Wot) (r : CellRange)
    (hr : s.cellRange = some r)
    (hcl : min r.getBottomRightCorner.row (w.lastRenderedRow + w.renderingOffsetSouth) <
        max r.getTopLeftCorner.row (w.firstRenderedRow + w.renderingOffsetNorth) ∨
      min r.getBottomRightCorner.col (w.lastRenderedColumn + w.renderingOffsetEast) <
        max r.getTopLeftCorner.col w.firstRenderedColumn) :
    (s.draw w).2.bodyCells = [] ∧
    (s.draw w).1.borderEdgesDescriptor = none ∧
    ((s.draw w).1).getBorderEdgesDescriptor = none := by
  rw [Selection.draw, hr]
  simp only
  have hdesc :
      ¬ (w.renderedRows ≠ 0 ∧ w.renderedColumns ≠ 0 ∧ s.settings.border = true ∧
        max r.getTopLeftCorner.row (w.firstRenderedRow + w.renderingOffsetNorth) ≤
          min r.getBottomRightCorner.row (w.lastRenderedRow + w.renderingOffsetSouth) ∧
        max r.getTopLeftCorner.col w.firstRenderedColumn ≤
          min r.getBottomRightCorner.col (w.lastRenderedColumn + w.renderingOffsetEast)) := by
    rintro ⟨-, -, -, h₄, h₅⟩
    rcases hcl with h | h <;> omega
  refine ⟨?_, ?_, ?_⟩
  · split
    · rcases hcl with h | h
      · rw [intRange_eq_nil _ _ h]
        rfl
      · rw [intRange_eq_nil _ _ h]
        simp
    · rfl
  · rw [if_neg hdesc]
  · rw [Selection.getBorderEdgesDescriptor]
    simp only
    rw [if_neg hdesc]

/-- C6 witness: scenario 4 of the spec — the single-cell selection with
logical corners `[10, 10, 10, 10]` drawn against the viewport whose rendered
rows are 0..8 produces an empty clipped band: no body selection classes and no
border-edges descriptor. -/
theorem draw_empty_clipped_band_witness :
    ((Selection.draw ⟨exampleSettings, some ⟨⟨10, 10⟩, ⟨10, 10⟩⟩, none⟩
        exampleWot).2.bodyCells = []) ∧
    ((Selection.draw ⟨exampleSettings, some ⟨⟨10, 10⟩, ⟨10, 10⟩⟩, none⟩
        exampleWot).1.borderEdgesDescriptor = none) ∧
    (((Selection.draw ⟨exampleSettings, some ⟨⟨10, 10⟩, ⟨10, 10⟩⟩, none⟩
        exampleWot).1).getBorderEdgesDescriptor = none) :=
  draw_empty_clipped_band
    ⟨exampleSettings, some ⟨⟨10, 10⟩, ⟨10, 10⟩⟩, none⟩ exampleWot
    ⟨⟨10, 10⟩, ⟨10, 10⟩⟩ rfl
    (Or.inl (by simp [exampleWot, Wot.renderingOffsetSouth, Wot.renderingOffsetNorth,
      CellRange.getTopLeftCorner, CellRange.getBottomRightCorner]))
